import Mathlib

/-!
Shallow embedding of `src/reddit_to_sheets.py`: the sentiment threshold
rule, the sheet-title sanitizer, the dedup ledger loaded from persisted
sheet values, the per-topic/per-feed ingestion loop of `main`, rollup
aggregation, and the chunked commit of rows.  The external collaborators
(HTTP fetch, VADER analyzer, clock, Google Sheets client) enter as
parameters; everything the control flow decides on is transcribed from
the source.
-/

namespace RTS

/-- Threshold rule of `sentiment_label` (src lines 41-46): positive at
`score >= 0.05`, negative at `score <= -0.05`, else neutral.  Compound
scores are modelled as rationals. -/
def sentiment_label (score : ℚ) : String :=
  if score ≥ 0.05 then "positive"
  else if score ≤ -0.05 then "negative"
  else "neutral"

/-- Characters forbidden in a sheet tab name (src line 34). -/
def badChars : List Char := [':', '\\', '/', '?', '*', '[', ']']

/-- Replacement loop of `safe_sheet_title` (src lines 35-36): each bad
character becomes a space.  Each pattern is a single character, so the
sequential `str.replace` calls act as a character map. -/
def replaceBad (s : List Char) : List Char :=
  badChars.foldl (fun t b => t.map fun c => if c = b then ' ' else c) s

/-- Accumulator pass behind `str.split()` with no arguments: split on
runs of whitespace, dropping empty pieces. -/
def wordsAux : List Char → List Char → List (List Char)
  | cur, [] => if cur = [] then [] else [cur.reverse]
  | cur, c :: t =>
    if c.isWhitespace then
      if cur = [] then wordsAux [] t else cur.reverse :: wordsAux [] t
    else wordsAux (c :: cur) t

/-- Python `title.split()` (src line 37). -/
def words (s : List Char) : List (List Char) := wordsAux [] s

/-- Python `" ".join(pieces)` (src line 37). -/
def joinSp : List (List Char) → List Char
  | [] => []
  | [w] => w
  | w :: rest => w ++ ' ' :: joinSp rest

/-- Python `str.strip()` on a character list: drop whitespace from both
ends. -/
def stripChars (s : List Char) : List Char :=
  ((s.dropWhile Char.isWhitespace).reverse.dropWhile Char.isWhitespace).reverse

/-- Python `str.strip()` on a string. -/
def pyStrip (s : String) : String := ⟨stripChars s.toList⟩

/-- Sanitizer `safe_sheet_title` (src lines 32-38): replace forbidden
characters by spaces, collapse whitespace, strip, truncate to 100
characters, and fall back to `"Topic"` when everything vanished. -/
def safe_sheet_title (s : List Char) : List Char :=
  let t := replaceBad s
  let t := stripChars (joinSp (words t))
  if t = [] then "Topic".toList else t.take 100

/-- String-level wrapper of the sanitizer, used as the worksheet key. -/
def safeTitleS (s : String) : String := ⟨safe_sheet_title s.toList⟩

/-- Decidable check that no two adjacent characters are both whitespace. -/
def noTwoWS : List Char → Bool
  | c :: d :: t => (!(c.isWhitespace && d.isWhitespace)) && noTwoWS (d :: t)
  | _ => true

/-- Raw item as the post loop of `main` reads it from a feed response:
`p.get("id", "")`, `p.get("title") or ""`, `p.get("created_utc", "")`,
`p.get("score", "")`, `p.get("num_comments", "")`, `p.get("permalink") or ""`
(src lines 213-241).  The two numeric cells are kept as the plain cell
text they would be written as. -/
structure Item where
  id : String
  title : String
  created_utc : Option ℚ
  score : String
  num_comments : String
  permalink : String
  deriving DecidableEq, Repr

/-- External collaborators of the run: the VADER compound score of a
text, the run clock `utc_now_iso()`, and the `created_utc` formatter. -/
structure Ctx where
  scorer : String → ℚ
  now : String
  fmtUtc : ℚ → String

/-- One persisted row, in the 11-column layout built at src lines 230-242. -/
structure PersistedRow where
  post_id : String
  run_time_utc : String
  topic : String
  subreddit : String
  created_utc : String
  title : String
  sentiment_compound : ℚ
  sentiment_label : String
  score_upvotes : String
  num_comments : String
  permalink : String
  deriving DecidableEq, Repr

/-- One rollup row, layout of src line 253. -/
structure RollupRow where
  run_time_utc : String
  topic : String
  subreddit : String
  new_posts_added : Nat
  avg_compound_sentiment : ℚ
  deriving DecidableEq, Repr

/-- Cell for the `created_utc` column (src lines 224-226).  Python
falsiness: a missing value and the number `0.0` both skip formatting. -/
def createdCell (ctx : Ctx) (p : Item) : String :=
  match p.created_utc with
  | none => ""
  | some t => if t = 0 then "0" else ctx.fmtUtc t

/-- Row constructed for an accepted post (src lines 230-242). -/
def mkRow (ctx : Ctx) (topic_name sub : String) (p : Item) (compound : ℚ)
    (label : String) : PersistedRow :=
  { post_id := p.id
    run_time_utc := ctx.now
    topic := topic_name
    subreddit := sub
    created_utc := createdCell ctx p
    title := (pyStrip p.title)
    sentiment_compound := compound
    sentiment_label := label
    score_upvotes := p.score
    num_comments := p.num_comments
    permalink := "https://www.reddit.com" ++ p.permalink }

/-- State of the post loop over one feed's response (src lines 209-246):
the mutable `existing_ids` ledger, the rows appended to `topic_new_rows`
by this feed, the `new_added` counter and the `sub_scores` list. -/
structure PostLoopResult where
  existing_ids : List String
  new_rows : List PersistedRow
  new_added : Nat
  sub_scores : List ℚ
  deriving Repr

/-- Post loop of `main` (src lines 212-246): skip an item when its id is
empty or already in the ledger, skip when the stripped title is empty,
otherwise score the title, build the row, register the id in the ledger
and count it. -/
def processPosts (ctx : Ctx) (topic_name sub : String) :
    List Item → List String → PostLoopResult
  | [], existing => ⟨existing, [], 0, []⟩
  | p :: ps, existing =>
    if p.id = "" ∨ p.id ∈ existing then processPosts ctx topic_name sub ps existing
    else if (pyStrip p.title) = "" then processPosts ctx topic_name sub ps existing
    else
      let compound := ctx.scorer (pyStrip p.title)
      let label := sentiment_label compound
      let row := mkRow ctx topic_name sub p compound label
      let r := processPosts ctx topic_name sub ps (existing.insert p.id)
      ⟨r.existing_ids, row :: r.new_rows, r.new_added + 1, compound :: r.sub_scores⟩

/-- Outcome of one `fetch_subreddit_posts` call as the feed loop sees it:
either the post list, or `none` for an exception caught at src line 205. -/
abbrev FetchResult := Option (List Item)

/-- Observable actions of the feed loop, used to state ordering claims:
fetch outcomes, the `time.sleep` pacing call, and the two kinds of
`append_rows` commits. -/
inductive Event where
  | fetchOk (sub : String) (fetched : Nat)
  | fetchErr (sub : String)
  | sleepCall
  | rowWrite (topic : String) (batch : List PersistedRow)
  | rollupWrite (batch : List RollupRow)
  deriving DecidableEq, Repr

/-- State accumulated by the feed loop of one topic (src lines 198-257). -/
structure TopicLoopResult where
  existing_ids : List String
  topic_new_rows : List PersistedRow
  rollups : List RollupRow
  events : List Event
  deriving Repr

/-- Feed loop of `main` (src lines 201-257): on a fetch error, log and
`continue` (which also skips the `time.sleep` at line 257); on success run
the post loop, append one rollup row built from `new_added` and the mean
of `sub_scores` (0.0 when empty), then sleep.  The dead `topic_scores`
accumulator of src lines 199 and 255 is read by nothing downstream and is
not carried. -/
def processFeeds (ctx : Ctx) (topic_name : String) :
    List (String × FetchResult) → List String → TopicLoopResult
  | [], existing => ⟨existing, [], [], []⟩
  | (sub, none) :: fs, existing =>
    let r := processFeeds ctx topic_name fs existing
    ⟨r.existing_ids, r.topic_new_rows, r.rollups, Event.fetchErr sub :: r.events⟩
  | (sub, some posts) :: fs, existing =>
    let pr := processPosts ctx topic_name sub posts existing
    let sub_avg : ℚ :=
      if pr.sub_scores = [] then 0 else pr.sub_scores.sum / pr.sub_scores.length
    let r := processFeeds ctx topic_name fs pr.existing_ids
    ⟨r.existing_ids, pr.new_rows ++ r.topic_new_rows,
      ⟨ctx.now, topic_name, sub, pr.new_added, sub_avg⟩ :: r.rollups,
      Event.fetchOk sub posts.length :: Event.sleepCall :: r.events⟩

/-- Set-insertion fold inside `get_existing_post_ids` (src lines 111-114):
collect `row[0].strip()` for every scanned row whose first cell strips to
something non-empty. -/
def collectIds (ids : List String) : List (List String) → List String
  | [] => ids
  | row :: rest =>
    match row with
    | [] => collectIds ids rest
    | c :: _ =>
      if (pyStrip c) ≠ "" then collectIds (ids.insert (pyStrip c)) rest
      else collectIds ids rest

/-- Ledger loader `get_existing_post_ids` (src lines 101-115) at the
default first-column index: empty when the sheet has at most the header,
otherwise the trimmed first cells of `values[1:max_rows]`. -/
def get_existing_post_ids (values : List (List String)) (max_rows : Nat := 2000) :
    List String :=
  if values.length ≤ 1 then []
  else collectIds [] ((values.drop 1).take (max_rows - 1))

/-- Chunking of a list into consecutive pieces of at most `n` elements,
the iteration pattern `rows[i:i+chunk_size]` of src lines 120-121 (used
only with the positive chunk size 200). -/
def chunksOf {α : Type} (n : Nat) : List α → List (List α)
  | [] => []
  | a :: t => (a :: t).take n :: chunksOf n (t.drop (n - 1))
termination_by l => l.length
decreasing_by simp only [List.length_drop, List.length_cons]; omega

/-- Batch writer `append_rows` (src lines 118-121) seen as the list of
per-call batches, at the default `chunk_size = 200`. -/
def append_rows {α : Type} (rows : List α) (chunk_size : Nat := 200) :
    List (List α) :=
  chunksOf chunk_size rows

/-- Fixed 11-column header of a topic worksheet (src lines 181-193). -/
def post_headers : List String :=
  ["post_id", "run_time_utc", "topic", "subreddit", "created_utc", "title",
   "sentiment_compound", "sentiment_label", "score_upvotes", "num_comments",
   "permalink"]

/-- Cell rendering of a persisted row, in the column order of src
lines 230-242, as it would come back from the sheet. -/
def rowCells (r : PersistedRow) : List String :=
  [r.post_id, r.run_time_utc, r.topic, r.subreddit, r.created_utc, r.title,
   toString r.sentiment_compound, r.sentiment_label, r.score_upvotes,
   r.num_comments, r.permalink]

/-- One configured topic together with this run's fetch outcome for each
of its feeds, in declared order. -/
structure TopicCfg where
  name : String
  subreddits : List (String × FetchResult)

/-- Topic body of `main` (src lines 174-263): skip a topic with no
subreddits, otherwise load the ledger from the topic's worksheet (keyed
by its sanitized title), run the feed loop, and commit the topic's new
rows in chunks when there are any. -/
def processTopic (ctx : Ctx) (store : String → List (List String))
    (t : TopicCfg) : List RollupRow × List Event :=
  if t.subreddits = [] then ([], [])
  else
    let existing := get_existing_post_ids (store (safeTitleS t.name))
    let r := processFeeds ctx t.name t.subreddits existing
    (r.rollups,
      r.events ++
        (if r.topic_new_rows = [] then []
         else (append_rows r.topic_new_rows).map (Event.rowWrite t.name)))

/-- Accumulation of rollup rows and events across the topic loop. -/
def runTopics (ctx : Ctx) (store : String → List (List String)) :
    List TopicCfg → List RollupRow × List Event
  | [] => ([], [])
  | t :: ts =>
    let h := processTopic ctx store t
    let r := runTopics ctx store ts
    (h.1 ++ r.1, h.2 ++ r.2)

/-- Whole run of `main` after setup (src lines 174-267): the topic loop
followed by the single rollup commit `append_rows(rollup_ws, rollup_rows)`
guarded by `if rollup_rows:`. -/
def runPipeline (ctx : Ctx) (store : String → List (List String))
    (topics : List TopicCfg) : List RollupRow × List Event :=
  let acc := runTopics ctx store topics
  (acc.1,
    acc.2 ++
      (if acc.1 = [] then [] else (append_rows acc.1).map Event.rollupWrite))

/-- Identifiers of all items of all successfully fetched feeds, in feed
declaration order and response order. -/
def feedItemIds (feeds : List (String × FetchResult)) : List String :=
  feeds.flatMap fun f =>
    match f.2 with
    | some ps => ps.map Item.id
    | none => []

/-- Rollup rows as §4.5 and §4.6 of the spec word them: one per feed
whose fetch succeeds, carrying the number of rows accepted from that feed
and the arithmetic mean of those rows' compound scores, 0 when no row was
accepted.  Stated over the accepted-row list itself, to be compared with
the counter and score list the code maintains. -/
def rollupRowsSpec (ctx : Ctx) (topic_name : String) :
    List (String × FetchResult) → List String → List RollupRow
  | [], _ => []
  | (_, none) :: fs, existing => rollupRowsSpec ctx topic_name fs existing
  | (sub, some posts) :: fs, existing =>
    let pr := processPosts ctx topic_name sub posts existing
    let compounds := pr.new_rows.map PersistedRow.sentiment_compound
    let mean : ℚ := if compounds = [] then 0 else compounds.sum / compounds.length
    ⟨ctx.now, topic_name, sub, pr.new_rows.length, mean⟩ ::
      rollupRowsSpec ctx topic_name fs pr.existing_ids

/-- C2: for every compound score, the label is positive iff the score is
at least 0.05, negative iff it is at most -0.05, and neutral exactly on
the open interval between; the boundaries 0.05 and -0.05 map to positive
and negative respectively. -/
theorem C2_sentiment_thresholds :
    (∀ c : ℚ,
      (sentiment_label c = "positive" ↔ 0.05 ≤ c) ∧
      (sentiment_label c = "negative" ↔ c ≤ -0.05) ∧
      (sentiment_label c = "neutral" ↔ -0.05 < c ∧ c < 0.05)) ∧
    sentiment_label 0.05 = "positive" ∧ sentiment_label (-0.05) = "negative" := by
  refine ⟨fun c => ?_, by norm_num [sentiment_label], by norm_num [sentiment_label]⟩
  unfold sentiment_label
  split_ifs with h1 h2
  · exact ⟨⟨fun _ => h1, fun _ => rfl⟩,
      ⟨fun h => absurd h (by decide), fun h => absurd (h1.trans h) (by norm_num)⟩,
      ⟨fun h => absurd h (by decide), fun h => absurd h1 (not_le.mpr h.2)⟩⟩
  · exact ⟨⟨fun h => absurd h (by decide), fun h => absurd h h1⟩,
      ⟨fun _ => h2, fun _ => rfl⟩,
      ⟨fun h => absurd h (by decide), fun h => absurd h2 (not_le.mpr h.1)⟩⟩
  · exact ⟨⟨fun h => absurd h (by decide), fun h => absurd h h1⟩,
      ⟨fun h => absurd h (by decide), fun h => absurd h h2⟩,
      ⟨fun _ => ⟨not_le.mp h2, not_le.mp h1⟩, fun _ => rfl⟩⟩

/-- C4: an item whose identifier is empty, or whose title strips to the
empty string, contributes nothing at all to the post loop, at any
position of the batch, any ledger and any remaining fields. -/
theorem C4_blank_items_skipped (ctx : Ctx) (tn sub : String) (p : Item)
    (hp : p.id = "" ∨ (pyStrip p.title) = "") :
    ∀ (ps1 ps2 : List Item) (ex : List String),
      processPosts ctx tn sub (ps1 ++ p :: ps2) ex =
        processPosts ctx tn sub (ps1 ++ ps2) ex := by
  intro ps1
  induction ps1 with
  | nil =>
    intro ps2 ex
    rcases hp with hid | htitle
    · simp [processPosts, hid]
    · by_cases hskip : p.id = "" ∨ p.id ∈ ex
      · simp [processPosts, hskip]
      · simp [processPosts, hskip, htitle]
  | cons a t ih =>
    intro ps2 ex
    simp only [List.cons_append, List.append_eq, processPosts, ih]

/-- Witness for C4 at a concrete batch: an item whose title is only
whitespace is dropped between two accepted items. -/
theorem C4_blank_items_skipped_witness :
    processPosts ⟨fun _ => 0, "", fun _ => ""⟩ "Tech" "golang"
        ([⟨"a1", "hi", none, "", "", ""⟩] ++
          ⟨"a2", "  ", none, "", "", ""⟩ ::
            [⟨"a3", "yo", none, "", "", ""⟩]) [] =
      processPosts ⟨fun _ => 0, "", fun _ => ""⟩ "Tech" "golang"
        ([⟨"a1", "hi", none, "", "", ""⟩] ++ [⟨"a3", "yo", none, "", "", ""⟩]) [] :=
  C4_blank_items_skipped ⟨fun _ => 0, "", fun _ => ""⟩ "Tech" "golang"
    ⟨"a2", "  ", none, "", "", ""⟩ (by right; decide)
    [⟨"a1", "hi", none, "", "", ""⟩] [⟨"a3", "yo", none, "", "", ""⟩] []

/-- Ledger characterization: after a feed's post loop, an identifier is
in the ledger exactly when it was there before or one of the accepted
rows carries it. -/
theorem processPosts_mem_existing (ctx : Ctx) (tn sub : String) :
    ∀ (ps : List Item) (ex : List String) (x : String),
      x ∈ (processPosts ctx tn sub ps ex).existing_ids ↔
        x ∈ ex ∨ x ∈ (processPosts ctx tn sub ps ex).new_rows.map PersistedRow.post_id := by
  intro ps
  induction ps with
  | nil => intro ex x; simp [processPosts]
  | cons p ps ih =>
    intro ex x
    by_cases h1 : p.id = "" ∨ p.id ∈ ex
    · simpa [processPosts, h1] using ih ex x
    · by_cases h2 : pyStrip p.title = ""
      · simpa [processPosts, h1, h2] using ih ex x
      · simp only [processPosts, if_neg h1, if_neg h2]
        simp only [List.map_cons, List.mem_cons, mkRow]
        rw [ih (ex.insert p.id) x]
        simp [List.mem_insert_iff]
        tauto

/-- An identifier already in the ledger is never accepted again by the
post loop. -/
theorem processPosts_countP_eq_zero (ctx : Ctx) (tn sub : String) (idv : String) :
    ∀ (ps : List Item) (ex : List String), idv ∈ ex →
      (processPosts ctx tn sub ps ex).new_rows.countP
        (fun r => r.post_id == idv) = 0 := by
  intro ps
  induction ps with
  | nil => intro ex _; simp [processPosts]
  | cons p ps ih =>
    intro ex h
    by_cases h1 : p.id = "" ∨ p.id ∈ ex
    · simpa [processPosts, h1] using ih ex h
    · by_cases h2 : pyStrip p.title = ""
      · simpa [processPosts, h1, h2] using ih ex h
      · have hne : p.id ≠ idv := by rintro rfl; exact h1 (Or.inr h)
        simp only [processPosts, if_neg h1, if_neg h2]
        simp [List.countP_cons, mkRow, hne,
          ih (ex.insert p.id) (List.mem_insert_iff.mpr (Or.inr h))]

/-- C3: the in-run ledger only grows during a feed batch (an added
identifier keeps answering membership), and a non-empty identifier not
yet known that occurs in the batch with a non-blank title yields exactly
one persisted row, however often it occurs. -/
theorem C3_within_run_dedup (ctx : Ctx) (tn sub : String)
    (ps : List Item) (ex : List String) (idv : String) :
    (∀ x ∈ ex, x ∈ (processPosts ctx tn sub ps ex).existing_ids) ∧
    (idv ≠ "" → idv ∉ ex →
      (∃ p ∈ ps, p.id = idv ∧ pyStrip p.title ≠ "") →
      (processPosts ctx tn sub ps ex).new_rows.countP
        (fun r => r.post_id == idv) = 1) := by
  constructor
  · intro x hx
    exact (processPosts_mem_existing ctx tn sub ps ex x).mpr (Or.inl hx)
  · induction ps generalizing ex with
    | nil =>
      intro _ _ hex
      rcases hex with ⟨q, hq, _⟩
      exact absurd hq (List.not_mem_nil q)
    | cons p ps ih =>
      intro hne hnot hex
      by_cases h1 : p.id = "" ∨ p.id ∈ ex
      · have hex' : ∃ q ∈ ps, q.id = idv ∧ pyStrip q.title ≠ "" := by
          rcases hex with ⟨q, hq, hqid, hqt⟩
          rcases List.mem_cons.mp hq with rfl | hq'
          · rcases h1 with hid | hmem
            · exact absurd (hqid.symm.trans hid) hne
            · exact absurd (hqid ▸ hmem) hnot
          · exact ⟨q, hq', hqid, hqt⟩
        simpa [processPosts, h1] using ih ex hne hnot hex'
      · by_cases h2 : pyStrip p.title = ""
        · have hex' : ∃ q ∈ ps, q.id = idv ∧ pyStrip q.title ≠ "" := by
            rcases hex with ⟨q, hq, hqid, hqt⟩
            rcases List.mem_cons.mp hq with rfl | hq'
            · exact absurd h2 hqt
            · exact ⟨q, hq', hqid, hqt⟩
          simpa [processPosts, h1, h2] using ih ex hne hnot hex'
        · simp only [processPosts, if_neg h1, if_neg h2]
          by_cases hpq : p.id = idv
          · subst hpq
            have hzero := processPosts_countP_eq_zero ctx tn sub p.id ps
              (ex.insert p.id) (List.mem_insert_iff.mpr (Or.inl rfl))
            simp [List.countP_cons, mkRow, hzero]
          · have hex' : ∃ q ∈ ps, q.id = idv ∧ pyStrip q.title ≠ "" := by
              rcases hex with ⟨q, hq, hqid, hqt⟩
              rcases List.mem_cons.mp hq with rfl | hq'
              · exact absurd hqid hpq
              · exact ⟨q, hq', hqid, hqt⟩
            have hnot' : idv ∉ ex.insert p.id := by
              intro hmem
              rcases List.mem_insert_iff.mp hmem with h | h
              · exact hpq h.symm
              · exact hnot h
            simp [List.countP_cons, mkRow, hpq, ih (ex.insert p.id) hne hnot' hex']

/-- Witness for C3: the identifier a1 occurring twice in one batch with
non-blank titles produces exactly one row. -/
theorem C3_within_run_dedup_witness :
    (processPosts ⟨fun _ => 0, "", fun _ => ""⟩ "Tech" "golang"
        [⟨"a1", "hi", none, "", "", ""⟩, ⟨"a1", "hi again", none, "", "", ""⟩]
        []).new_rows.countP (fun r => r.post_id == "a1") = 1 :=
  (C3_within_run_dedup ⟨fun _ => 0, "", fun _ => ""⟩ "Tech" "golang"
      [⟨"a1", "hi", none, "", "", ""⟩, ⟨"a1", "hi again", none, "", "", ""⟩]
      [] "a1").2
    (by decide) (by simp)
    ⟨⟨"a1", "hi", none, "", "", ""⟩, by simp, rfl, by decide⟩

/-- The `new_added` counter of the post loop equals the number of rows
it accepted. -/
theorem processPosts_new_added (ctx : Ctx) (tn sub : String) :
    ∀ (ps : List Item) (ex : List String),
      (processPosts ctx tn sub ps ex).new_added =
        (processPosts ctx tn sub ps ex).new_rows.length := by
  intro ps
  induction ps with
  | nil => intro ex; simp [processPosts]
  | cons p ps ih =>
    intro ex
    by_cases h1 : p.id = "" ∨ p.id ∈ ex
    · simpa [processPosts, h1] using ih ex
    · by_cases h2 : pyStrip p.title = ""
      · simpa [processPosts, h1, h2] using ih ex
      · simp [processPosts, if_neg h1, if_neg h2, ih (ex.insert p.id)]

/-- The `sub_scores` list of the post loop is exactly the compound score
column of the rows it accepted, in order. -/
theorem processPosts_sub_scores (ctx : Ctx) (tn sub : String) :
    ∀ (ps : List Item) (ex : List String),
      (processPosts ctx tn sub ps ex).sub_scores =
        (processPosts ctx tn sub ps ex).new_rows.map PersistedRow.sentiment_compound := by
  intro ps
  induction ps with
  | nil => intro ex; simp [processPosts]
  | cons p ps ih =>
    intro ex
    by_cases h1 : p.id = "" ∨ p.id ∈ ex
    · simpa [processPosts, h1] using ih ex
    · by_cases h2 : pyStrip p.title = ""
      · simpa [processPosts, h1, h2] using ih ex
      · simp [processPosts, if_neg h1, if_neg h2, mkRow, ih (ex.insert p.id)]

/-- C5: every feed whose fetch succeeds contributes exactly one rollup
row, carrying the count of rows accepted from that feed and the
arithmetic mean of those rows' compound scores (0 for an empty feed), and
failed fetches contribute none: the rollups computed by the feed loop
coincide with the spec-worded `rollupRowsSpec`, and their number is the
number of successful fetches. -/
theorem C5_one_rollup_per_fetched_feed (ctx : Ctx) (tn : String) :
    ∀ (feeds : List (String × FetchResult)) (ex : List String),
      (processFeeds ctx tn feeds ex).rollups = rollupRowsSpec ctx tn feeds ex ∧
      (processFeeds ctx tn feeds ex).rollups.length =
        feeds.countP (fun f => f.2.isSome) := by
  intro feeds
  induction feeds with
  | nil => intro ex; simp [processFeeds, rollupRowsSpec]
  | cons f fs ih =>
    intro ex
    obtain ⟨sub, fr⟩ := f
    cases fr with
    | none => simpa [processFeeds, rollupRowsSpec, List.countP_cons] using ih ex
    | some posts =>
      have hn := processPosts_new_added ctx tn sub posts ex
      have hs := processPosts_sub_scores ctx tn sub posts ex
      have iht := ih (processPosts ctx tn sub posts ex).existing_ids
      constructor
      · simp only [processFeeds, rollupRowsSpec]
        rw [← hs, ← hn, iht.1]
      · simp [processFeeds, List.countP_cons, iht.2]

/-- The feed loop splits over list append: the second part starts from
the ledger the first part ends with, and rows, rollups and events
concatenate in order. -/
theorem processFeeds_append (ctx : Ctx) (tn : String) :
    ∀ (a b : List (String × FetchResult)) (ex : List String),
      processFeeds ctx tn (a ++ b) ex =
        { existing_ids :=
            (processFeeds ctx tn b (processFeeds ctx tn a ex).existing_ids).existing_ids,
          topic_new_rows :=
            (processFeeds ctx tn a ex).topic_new_rows ++
              (processFeeds ctx tn b (processFeeds ctx tn a ex).existing_ids).topic_new_rows,
          rollups :=
            (processFeeds ctx tn a ex).rollups ++
              (processFeeds ctx tn b (processFeeds ctx tn a ex).existing_ids).rollups,
          events :=
            (processFeeds ctx tn a ex).events ++
              (processFeeds ctx tn b (processFeeds ctx tn a ex).existing_ids).events } := by
  intro a
  induction a with
  | nil => intro b ex; simp [processFeeds]
  | cons f fs ih =>
    intro b ex
    obtain ⟨sub, fr⟩ := f
    cases fr with
    | none => simp [processFeeds, ih]
    | some posts => simp [processFeeds, ih]

/-- The topic loop splits around any topic: each topic's contribution is
independent of the others. -/
theorem runTopics_split (ctx : Ctx) (store : String → List (List String)) :
    ∀ (ts1 ts2 : List TopicCfg) (t : TopicCfg),
      runTopics ctx store (ts1 ++ t :: ts2) =
        ((runTopics ctx store ts1).1 ++ (processTopic ctx store t).1 ++
          (runTopics ctx store ts2).1,
         (runTopics ctx store ts1).2 ++ (processTopic ctx store t).2 ++
          (runTopics ctx store ts2).2) := by
  intro ts1
  induction ts1 with
  | nil => intro ts2 t; simp [runTopics]
  | cons u us ih => intro ts2 t; simp [runTopics, ih]

/-- C6: a feed whose fetch raises is skipped in place: the topic's rows,
rollups and final ledger are the same as if the feed were absent, the
only trace it leaves is the error event between the surrounding feeds'
events, the remaining feeds of the topic are processed unchanged, and
the run's other topics and accumulated rollups are untouched. -/
theorem C6_fetch_error_isolated (ctx : Ctx) (tn : String) (ex : List String)
    (sub : String) (fs1 fs2 : List (String × FetchResult)) :
    ((processFeeds ctx tn (fs1 ++ (sub, none) :: fs2) ex).topic_new_rows =
        (processFeeds ctx tn (fs1 ++ fs2) ex).topic_new_rows) ∧
    ((processFeeds ctx tn (fs1 ++ (sub, none) :: fs2) ex).rollups =
        (processFeeds ctx tn (fs1 ++ fs2) ex).rollups) ∧
    ((processFeeds ctx tn (fs1 ++ (sub, none) :: fs2) ex).existing_ids =
        (processFeeds ctx tn (fs1 ++ fs2) ex).existing_ids) ∧
    ((processFeeds ctx tn (fs1 ++ (sub, none) :: fs2) ex).events =
        (processFeeds ctx tn fs1 ex).events ++
          Event.fetchErr sub ::
            (processFeeds ctx tn fs2
              (processFeeds ctx tn fs1 ex).existing_ids).events) ∧
    ((processFeeds ctx tn (fs1 ++ fs2) ex).events =
        (processFeeds ctx tn fs1 ex).events ++
          (processFeeds ctx tn fs2
            (processFeeds ctx tn fs1 ex).existing_ids).events) ∧
    (∀ (store : String → List (List String)) (ts1 ts2 : List TopicCfg)
        (tname : String),
      (runTopics ctx store (ts1 ++ ⟨tname, fs1 ++ (sub, none) :: fs2⟩ :: ts2)).1 =
        (runTopics ctx store (ts1 ++ ⟨tname, fs1 ++ fs2⟩ :: ts2)).1) := by
  have key : ∀ (tnm : String) (L : List String),
      ((processFeeds ctx tnm (fs1 ++ (sub, none) :: fs2) L).topic_new_rows =
          (processFeeds ctx tnm (fs1 ++ fs2) L).topic_new_rows) ∧
      ((processFeeds ctx tnm (fs1 ++ (sub, none) :: fs2) L).rollups =
          (processFeeds ctx tnm (fs1 ++ fs2) L).rollups) ∧
      ((processFeeds ctx tnm (fs1 ++ (sub, none) :: fs2) L).existing_ids =
          (processFeeds ctx tnm (fs1 ++ fs2) L).existing_ids) ∧
      ((processFeeds ctx tnm (fs1 ++ (sub, none) :: fs2) L).events =
          (processFeeds ctx tnm fs1 L).events ++
            Event.fetchErr sub ::
              (processFeeds ctx tnm fs2
                (processFeeds ctx tnm fs1 L).existing_ids).events) ∧
      ((processFeeds ctx tnm (fs1 ++ fs2) L).events =
          (processFeeds ctx tnm fs1 L).events ++
            (processFeeds ctx tnm fs2
              (processFeeds ctx tnm fs1 L).existing_ids).events) := by
    intro tnm L
    rw [processFeeds_append ctx tnm fs1 ((sub, none) :: fs2) L,
      processFeeds_append ctx tnm fs1 fs2 L]
    simp [processFeeds]
  obtain ⟨k1, k2, k3, k4, k5⟩ := key tn ex
  refine ⟨k1, k2, k3, k4, k5, ?_⟩
  intro store ts1 ts2 tname
  rw [runTopics_split, runTopics_split]
  suffices h : (processTopic ctx store ⟨tname, fs1 ++ (sub, none) :: fs2⟩).1 =
      (processTopic ctx store ⟨tname, fs1 ++ fs2⟩).1 by rw [h]
  by_cases hg : fs1 ++ fs2 = []
  · obtain ⟨hf1, hf2⟩ := List.append_eq_nil.mp hg
    subst hf1; subst hf2
    simp [processTopic, processFeeds]
  · simp only [processTopic]
    rw [if_neg (show ¬(fs1 ++ (sub, none) :: fs2 = []) by simp), if_neg hg]
    exact (key tname _).2.1

/-- Counterexample to C7: a feed whose fetch fails triggers `continue`,
which skips the `time.sleep` call, so no pacing delay happens after it. -/
theorem C7_counterexample :
    Event.sleepCall ∉
      (processFeeds ⟨fun _ => 0, "", fun _ => ""⟩ "Tech"
        [("golang", none)] []).events := by
  decide

/-- C7 as amended: the pacing delay runs after each feed whose fetch
succeeded — the event trace is, per feed, a fetch-success event followed
by a sleep, or a bare fetch-error event — so the number of sleep calls is
the number of successful fetches, not the number of feeds. -/
theorem C7_amended_sleep_after_success (ctx : Ctx) (tn : String) :
    ∀ (feeds : List (String × FetchResult)) (ex : List String),
      (processFeeds ctx tn feeds ex).events =
        (feeds.flatMap fun f =>
          match f.2 with
          | none => [Event.fetchErr f.1]
          | some ps => [Event.fetchOk f.1 ps.length, Event.sleepCall]) ∧
      (processFeeds ctx tn feeds ex).events.countP
          (fun e => e == Event.sleepCall) =
        feeds.countP (fun f => f.2.isSome) := by
  intro feeds
  induction feeds with
  | nil => intro ex; simp [processFeeds]
  | cons f fs ih =>
    intro ex
    obtain ⟨sub, fr⟩ := f
    cases fr with
    | none =>
      refine ⟨by simp [processFeeds, (ih ex).1], ?_⟩
      simp [processFeeds, List.countP_cons, beq_iff_eq, (ih ex).2]
    | some posts =>
      have iht := ih (processPosts ctx tn sub posts ex).existing_ids
      refine ⟨by simp [processFeeds, iht.1], ?_⟩
      simp [processFeeds, List.countP_cons, beq_iff_eq, iht.2]

/-- Chunking splits losslessly: concatenating the chunks of a positive
chunk size gives back the list (stated with an explicit length fuel). -/
theorem chunksOf_join_of_le {α : Type} (n : Nat) (hn : 1 ≤ n) :
    ∀ (k : Nat) (l : List α), l.length ≤ k → (chunksOf n l).flatten = l := by
  intro k
  induction k with
  | zero =>
    intro l hl
    cases l with
    | nil => simp [chunksOf]
    | cons a t => simp at hl
  | succ k ih =>
    intro l hl
    cases l with
    | nil => simp [chunksOf]
    | cons a t =>
      rw [chunksOf]
      simp only [List.flatten_cons]
      rw [ih (t.drop (n - 1))
        (by simp only [List.length_drop]; simp at hl; omega)]
      cases n with
      | zero => exact absurd hn (by omega)
      | succ m =>
        simp [List.take_succ_cons, Nat.succ_sub_one, List.take_append_drop]

/-- Concatenating the 200-row commit batches restores the row list. -/
theorem append_rows_join {α : Type} (rows : List α) :
    (append_rows rows).flatten = rows :=
  chunksOf_join_of_le 200 (by omega) rows.length rows le_rfl

/-- Every chunk of a positive chunk size is non-empty and within bound. -/
theorem chunksOf_mem_bound {α : Type} (n : Nat) (hn : 1 ≤ n) :
    ∀ (k : Nat) (l : List α), l.length ≤ k →
      ∀ b ∈ chunksOf n l, b ≠ [] ∧ b.length ≤ n := by
  intro k
  induction k with
  | zero =>
    intro l hl b hb
    cases l with
    | nil => simp [chunksOf] at hb
    | cons a t => simp at hl
  | succ k ih =>
    intro l hl b hb
    cases l with
    | nil => simp [chunksOf] at hb
    | cons a t =>
      rw [chunksOf] at hb
      rcases List.mem_cons.mp hb with rfl | hb'
      · constructor
        · cases n with
          | zero => exact absurd hn (by omega)
          | succ m => simp [List.take_succ_cons]
        · simp [Nat.min_le_left]
      · exact ih (t.drop (n - 1))
          (by simp only [List.length_drop]; simp at hl; omega) b hb'

/-- Identifiers of the rows a feed's post loop accepts form a subsequence
of the identifiers of the fetched items, in response order. -/
theorem processPosts_ids_sublist (ctx : Ctx) (tn sub : String) :
    ∀ (ps : List Item) (ex : List String),
      List.Sublist
        ((processPosts ctx tn sub ps ex).new_rows.map PersistedRow.post_id)
        (ps.map Item.id) := by
  intro ps
  induction ps with
  | nil => intro ex; simp [processPosts]
  | cons p ps ih =>
    intro ex
    by_cases h1 : p.id = "" ∨ p.id ∈ ex
    · simp only [processPosts, if_pos h1, List.map_cons]
      exact List.Sublist.cons _ (ih ex)
    · by_cases h2 : pyStrip p.title = ""
      · simp only [processPosts, if_neg h1, if_pos h2, List.map_cons]
        exact List.Sublist.cons _ (ih ex)
      · simp only [processPosts, if_neg h1, if_neg h2, List.map_cons, mkRow]
        exact List.Sublist.cons₂ _ (ih (ex.insert p.id))

/-- Identifiers of a topic's accepted rows form a subsequence of the
identifiers of all fetched items, feeds in declared order and items in
response order. -/
theorem processFeeds_ids_sublist (ctx : Ctx) (tn : String) :
    ∀ (feeds : List (String × FetchResult)) (ex : List String),
      List.Sublist
        ((processFeeds ctx tn feeds ex).topic_new_rows.map PersistedRow.post_id)
        (feedItemIds feeds) := by
  intro feeds
  induction feeds with
  | nil => intro ex; simp [processFeeds, feedItemIds]
  | cons f fs ih =>
    intro ex
    obtain ⟨sub, fr⟩ := f
    cases fr with
    | none => simpa [processFeeds, feedItemIds] using ih ex
    | some posts =>
      simp only [processFeeds, feedItemIds, List.flatMap_cons, List.map_append]
      exact List.Sublist.append (processPosts_ids_sublist ctx tn sub posts ex)
        (ih (processPosts ctx tn sub posts ex).existing_ids)

/-- C8: a topic with accepted rows commits them in non-empty batches of
at most 200 rows whose concatenation is exactly the accepted row list;
the row identifiers are a subsequence of the fetched item identifiers in
feed-declaration and response order, and any split of the feed list
splits the row list at the same point, so order is preserved across
batch and feed boundaries. -/
theorem C8_topic_commit (ctx : Ctx) (tn : String) (ex : List String)
    (feeds : List (String × FetchResult))
    (h : (processFeeds ctx tn feeds ex).topic_new_rows ≠ []) :
    ((append_rows (processFeeds ctx tn feeds ex).topic_new_rows).flatten =
        (processFeeds ctx tn feeds ex).topic_new_rows) ∧
    (∀ b ∈ append_rows (processFeeds ctx tn feeds ex).topic_new_rows,
        b ≠ [] ∧ b.length ≤ 200) ∧
    List.Sublist
      ((processFeeds ctx tn feeds ex).topic_new_rows.map PersistedRow.post_id)
      (feedItemIds feeds) ∧
    (∀ fs1 fs2, feeds = fs1 ++ fs2 →
      (processFeeds ctx tn feeds ex).topic_new_rows =
        (processFeeds ctx tn fs1 ex).topic_new_rows ++
          (processFeeds ctx tn fs2
            (processFeeds ctx tn fs1 ex).existing_ids).topic_new_rows) := by
  refine ⟨append_rows_join _,
    fun b hb => chunksOf_mem_bound 200 (by omega) _ _ le_rfl b hb,
    processFeeds_ids_sublist ctx tn feeds ex, ?_⟩
  intro fs1 fs2 hsplit
  subst hsplit
  rw [processFeeds_append ctx tn fs1 fs2 ex]

/-- Witness for C8 at a one-feed, one-row topic. -/
theorem C8_topic_commit_witness :
    ((append_rows (processFeeds ⟨fun _ => 0, "", fun _ => ""⟩ "Tech"
          [("golang", some [⟨"a1", "hi", none, "", "", ""⟩])] []).topic_new_rows).flatten =
        (processFeeds ⟨fun _ => 0, "", fun _ => ""⟩ "Tech"
          [("golang", some [⟨"a1", "hi", none, "", "", ""⟩])] []).topic_new_rows) ∧
    (∀ b ∈ append_rows (processFeeds ⟨fun _ => 0, "", fun _ => ""⟩ "Tech"
          [("golang", some [⟨"a1", "hi", none, "", "", ""⟩])] []).topic_new_rows,
        b ≠ [] ∧ b.length ≤ 200) ∧
    List.Sublist
      ((processFeeds ⟨fun _ => 0, "", fun _ => ""⟩ "Tech"
          [("golang", some [⟨"a1", "hi", none, "", "", ""⟩])] []).topic_new_rows.map
        PersistedRow.post_id)
      (feedItemIds [("golang", some [⟨"a1", "hi", none, "", "", ""⟩])]) ∧
    (∀ fs1 fs2, [("golang", some [⟨"a1", "hi", none, "", "", ""⟩])] = fs1 ++ fs2 →
      (processFeeds ⟨fun _ => 0, "", fun _ => ""⟩ "Tech"
          [("golang", some [⟨"a1", "hi", none, "", "", ""⟩])] []).topic_new_rows =
        (processFeeds ⟨fun _ => 0, "", fun _ => ""⟩ "Tech" fs1 []).topic_new_rows ++
          (processFeeds ⟨fun _ => 0, "", fun _ => ""⟩ "Tech" fs2
            (processFeeds ⟨fun _ => 0, "", fun _ => ""⟩ "Tech" fs1
              []).existing_ids).topic_new_rows) :=
  C8_topic_commit ⟨fun _ => 0, "", fun _ => ""⟩ "Tech" []
    [("golang", some [⟨"a1", "hi", none, "", "", ""⟩])] (by decide)

/-- The feed loop itself only emits fetch outcomes and sleeps. -/
theorem processFeeds_events_shape (ctx : Ctx) (tn : String) :
    ∀ (feeds : List (String × FetchResult)) (ex : List String),
      ∀ e ∈ (processFeeds ctx tn feeds ex).events,
        (∃ s k, e = Event.fetchOk s k) ∨ (∃ s, e = Event.fetchErr s) ∨
          e = Event.sleepCall := by
  intro feeds
  induction feeds with
  | nil => intro ex e he; simp [processFeeds] at he
  | cons f fs ih =>
    intro ex e he
    obtain ⟨sub, fr⟩ := f
    cases fr with
    | none =>
      simp only [processFeeds, List.mem_cons] at he
      rcases he with rfl | he'
      · exact Or.inr (Or.inl ⟨sub, rfl⟩)
      · exact ih ex e he'
    | some posts =>
      simp only [processFeeds, List.mem_cons] at he
      rcases he with rfl | rfl | he'
      · exact Or.inl ⟨sub, posts.length, rfl⟩
      · exact Or.inr (Or.inr rfl)
      · exact ih _ e he'

/-- Topic processing never writes rollups: those are only committed by
the run's final step. -/
theorem processTopic_events_no_rollup (ctx : Ctx)
    (store : String → List (List String)) (t : TopicCfg) :
    ∀ e ∈ (processTopic ctx store t).2, ∀ b, e ≠ Event.rollupWrite b := by
  intro e he b
  by_cases hs : t.subreddits = []
  · simp [processTopic, hs] at he
  · simp only [processTopic, if_neg hs] at he
    rcases List.mem_append.mp he with h1 | h2
    · rcases processFeeds_events_shape ctx t.name t.subreddits _ e h1 with
        ⟨s, k, rfl⟩ | ⟨s, rfl⟩ | rfl <;> simp
    · by_cases hr :
        (processFeeds ctx t.name t.subreddits
          (get_existing_post_ids (store (safeTitleS t.name)))).topic_new_rows = []
      · simp [hr] at h2
      · rw [if_neg hr] at h2
        rcases List.mem_map.mp h2 with ⟨batch, _, rfl⟩
        simp

/-- The whole topic loop never writes rollups. -/
theorem runTopics_events_no_rollup (ctx : Ctx)
    (store : String → List (List String)) :
    ∀ (ts : List TopicCfg),
      ∀ e ∈ (runTopics ctx store ts).2, ∀ b, e ≠ Event.rollupWrite b := by
  intro ts
  induction ts with
  | nil => intro e he; simp [runTopics] at he
  | cons t ts ih =>
    intro e he b
    simp only [runTopics] at he
    rcases List.mem_append.mp he with h1 | h2
    · exact processTopic_events_no_rollup ctx store t e h1 b
    · exact ih e h2 b

/-- C9: the run's rollup rows are exactly what the topic loop
accumulated, no rollup write happens during the topic loop, and after
all topics they are committed in one final batched write whose batches
concatenate back to the full accumulated rollup list. -/
theorem C9_single_final_rollup_write (ctx : Ctx)
    (store : String → List (List String)) (topics : List TopicCfg) :
    ((runPipeline ctx store topics).1 = (runTopics ctx store topics).1) ∧
    ((runPipeline ctx store topics).2 =
      (runTopics ctx store topics).2 ++
        (append_rows (runTopics ctx store topics).1).map Event.rollupWrite) ∧
    ((append_rows (runTopics ctx store topics).1).flatten =
      (runTopics ctx store topics).1) ∧
    (∀ e ∈ (runTopics ctx store topics).2, ∀ b, e ≠ Event.rollupWrite b) := by
  refine ⟨rfl, ?_, append_rows_join _, runTopics_events_no_rollup ctx store topics⟩
  by_cases ha : (runTopics ctx store topics).1 = []
  · simp [runPipeline, ha, append_rows, chunksOf]
  · simp [runPipeline, ha]

/-- If a later run's ledger covers both the earlier run's ledger and the
identifiers the earlier run accepted from a batch, the later run accepts
nothing from the same batch. -/
theorem processPosts_rows_nil_of_covered (ctx ctx2 : Ctx) (tn sub : String) :
    ∀ (ps : List Item) (L1 L2 : List String),
      (∀ x ∈ L1, x ∈ L2) →
      (∀ x ∈ (processPosts ctx tn sub ps L1).new_rows.map PersistedRow.post_id, x ∈ L2) →
      (processPosts ctx2 tn sub ps L2).new_rows = [] := by
  intro ps
  induction ps with
  | nil => intro L1 L2 _ _; simp [processPosts]
  | cons p ps ih =>
    intro L1 L2 hsub hrows
    by_cases h1 : p.id = "" ∨ p.id ∈ L1
    · have hrows' : ∀ x ∈ (processPosts ctx tn sub ps L1).new_rows.map
          PersistedRow.post_id, x ∈ L2 := by
        intro x hx; apply hrows; simpa [processPosts, h1] using hx
      have h1' : p.id = "" ∨ p.id ∈ L2 := by
        rcases h1 with hid | hmem
        · exact Or.inl hid
        · exact Or.inr (hsub _ hmem)
      simp only [processPosts, if_pos h1']
      exact ih L1 L2 hsub hrows'
    · by_cases h2 : pyStrip p.title = ""
      · have hrows' : ∀ x ∈ (processPosts ctx tn sub ps L1).new_rows.map
            PersistedRow.post_id, x ∈ L2 := by
          intro x hx; apply hrows; simpa [processPosts, if_neg h1, h2] using hx
        by_cases h1' : p.id = "" ∨ p.id ∈ L2
        · simp only [processPosts, if_pos h1']
          exact ih L1 L2 hsub hrows'
        · simp only [processPosts, if_neg h1', if_pos h2]
          exact ih L1 L2 hsub hrows'
      · have hid2 : p.id ∈ L2 := by
          apply hrows
          simp [processPosts, if_neg h1, if_neg h2, mkRow]
        have hrows' : ∀ x ∈ (processPosts ctx tn sub ps (L1.insert p.id)).new_rows.map
            PersistedRow.post_id, x ∈ L2 := by
          intro x hx
          apply hrows
          simp only [processPosts, if_neg h1, if_neg h2, List.map_cons, List.mem_cons]
          exact Or.inr hx
        have hsub' : ∀ x ∈ L1.insert p.id, x ∈ L2 := by
          intro x hx
          rcases List.mem_insert_iff.mp hx with rfl | hx'
          · exact hid2
          · exact hsub x hx'
        simp only [processPosts, if_pos (Or.inr hid2 : p.id = "" ∨ p.id ∈ L2)]
        exact ih (L1.insert p.id) L2 hsub' hrows'

/-- Topic-level version: a ledger covering a previous run's starting
ledger and all its accepted identifiers makes a rerun of the same feed
responses accept nothing. -/
theorem processFeeds_rows_nil_of_covered (ctx ctx2 : Ctx) (tn : String) :
    ∀ (feeds : List (String × FetchResult)) (L1 L2 : List String),
      (∀ x ∈ L1, x ∈ L2) →
      (∀ x ∈ (processFeeds ctx tn feeds L1).topic_new_rows.map PersistedRow.post_id,
        x ∈ L2) →
      (processFeeds ctx2 tn feeds L2).topic_new_rows = [] := by
  intro feeds
  induction feeds with
  | nil => intro L1 L2 _ _; simp [processFeeds]
  | cons f fs ih =>
    intro L1 L2 hsub hrows
    obtain ⟨sub, fr⟩ := f
    cases fr with
    | none =>
      simp only [processFeeds]
      apply ih L1 L2 hsub
      intro x hx; apply hrows
      simpa [processFeeds] using hx
    | some posts =>
      have hpr1 : ∀ x ∈ (processPosts ctx tn sub posts L1).new_rows.map
          PersistedRow.post_id, x ∈ L2 := by
        intro x hx; apply hrows
        simp only [processFeeds, List.map_append, List.mem_append]
        exact Or.inl hx
      have hrest1 : ∀ x ∈ (processFeeds ctx tn fs
          (processPosts ctx tn sub posts L1).existing_ids).topic_new_rows.map
          PersistedRow.post_id, x ∈ L2 := by
        intro x hx; apply hrows
        simp only [processFeeds, List.map_append, List.mem_append]
        exact Or.inr hx
      have hpr2 : (processPosts ctx2 tn sub posts L2).new_rows = [] :=
        processPosts_rows_nil_of_covered ctx ctx2 tn sub posts L1 L2 hsub hpr1
      have hmono2 : ∀ x ∈ L2, x ∈ (processPosts ctx2 tn sub posts L2).existing_ids :=
        fun x hx => (processPosts_mem_existing ctx2 tn sub posts L2 x).mpr (Or.inl hx)
      have hsub' : ∀ x ∈ (processPosts ctx tn sub posts L1).existing_ids,
          x ∈ (processPosts ctx2 tn sub posts L2).existing_ids := by
        intro x hx
        rcases (processPosts_mem_existing ctx tn sub posts L1 x).mp hx with hx' | hx'
        · exact hmono2 x (hsub x hx')
        · exact hmono2 x (hpr1 x hx')
      have hrest2 := ih (processPosts ctx tn sub posts L1).existing_ids
        (processPosts ctx2 tn sub posts L2).existing_ids hsub'
        (fun x hx => hmono2 x (hrest1 x hx))
      simp [processFeeds, hpr2, hrest2]

/-- Collected identifiers only grow along the scan. -/
theorem collectIds_mem_mono :
    ∀ (l : List (List String)) (ids : List String) (x : String),
      x ∈ ids → x ∈ collectIds ids l := by
  intro l
  induction l with
  | nil => intro ids x hx; simpa [collectIds] using hx
  | cons row rest ih =>
    intro ids x hx
    cases row with
    | nil => simpa [collectIds] using ih ids x hx
    | cons c rt =>
      by_cases hc : pyStrip c ≠ ""
      · simp only [collectIds, if_pos hc]
        exact ih _ x (List.mem_insert_iff.mpr (Or.inr hx))
      · simp only [collectIds, if_neg hc]
        exact ih ids x hx

/-- A scanned row whose first cell strips to something non-empty puts
that stripped cell into the ledger. -/
theorem collectIds_mem_head :
    ∀ (l : List (List String)) (ids : List String) (c : String) (rt : List String),
      (c :: rt) ∈ l → pyStrip c ≠ "" → pyStrip c ∈ collectIds ids l := by
  intro l
  induction l with
  | nil => intro ids c rt h _; exact absurd h (List.not_mem_nil _)
  | cons row rest ih =>
    intro ids c rt h hc
    rcases List.mem_cons.mp h with heq | h'
    · subst heq
      simp only [collectIds, if_pos hc]
      exact collectIds_mem_mono rest _ _ (List.mem_insert_iff.mpr (Or.inl rfl))
    · cases row with
      | nil => simp only [collectIds]; exact ih ids c rt h' hc
      | cons d dt =>
        by_cases hd : pyStrip d ≠ ""
        · simp only [collectIds, if_pos hd]; exact ih _ c rt h' hc
        · simp only [collectIds, if_neg hd]; exact ih ids c rt h' hc

/-- A sheet holding a header plus at most 1999 persisted rows whose
identifiers are non-empty and unchanged by stripping yields a ledger
containing every row's identifier. -/
theorem get_existing_covers (rows : List PersistedRow)
    (hlen : rows.length ≤ 1999)
    (htrim : ∀ r ∈ rows, pyStrip r.post_id = r.post_id)
    (hne : ∀ r ∈ rows, r.post_id ≠ "") :
    ∀ r ∈ rows,
      r.post_id ∈ get_existing_post_ids (post_headers :: rows.map rowCells) := by
  intro r hr
  have hrne : rows ≠ [] := List.ne_nil_of_mem hr
  have hlen2 : ¬(post_headers :: rows.map rowCells).length ≤ 1 := by
    simp only [List.length_cons, List.length_map]
    have : 0 < rows.length := List.length_pos.mpr hrne
    omega
  unfold get_existing_post_ids
  rw [if_neg hlen2]
  have htake : ((post_headers :: rows.map rowCells).drop 1).take (2000 - 1) =
      rows.map rowCells := by
    rw [List.drop_one, List.tail_cons]
    exact List.take_of_length_le (by simpa using hlen)
  rw [htake]
  have hmem : (r.post_id ::
      [r.run_time_utc, r.topic, r.subreddit, r.created_utc, r.title,
        toString r.sentiment_compound, r.sentiment_label, r.score_upvotes,
        r.num_comments, r.permalink]) ∈ rows.map rowCells :=
    List.mem_map_of_mem rowCells hr
  have := collectIds_mem_head (rows.map rowCells) [] r.post_id
    [r.run_time_utc, r.topic, r.subreddit, r.created_utc, r.title,
      toString r.sentiment_compound, r.sentiment_label, r.score_upvotes,
      r.num_comments, r.permalink] hmem (by rw [htrim r hr]; exact hne r hr)
  rwa [htrim r hr] at this

/-- Every accepted row's identifier is the (non-empty) identifier of one
of the batch's items. -/
theorem processPosts_rows_from_items (ctx : Ctx) (tn sub : String) :
    ∀ (ps : List Item) (ex : List String),
      ∀ r ∈ (processPosts ctx tn sub ps ex).new_rows,
        ∃ p ∈ ps, r.post_id = p.id ∧ p.id ≠ "" := by
  intro ps
  induction ps with
  | nil => intro ex r hr; simp [processPosts] at hr
  | cons p ps ih =>
    intro ex r hr
    by_cases h1 : p.id = "" ∨ p.id ∈ ex
    · rcases ih ex r (by simpa [processPosts, h1] using hr) with ⟨q, hq, hid, hqne⟩
      exact ⟨q, List.mem_cons_of_mem p hq, hid, hqne⟩
    · by_cases h2 : pyStrip p.title = ""
      · rcases ih ex r (by simpa [processPosts, if_neg h1, h2] using hr) with
          ⟨q, hq, hid, hqne⟩
        exact ⟨q, List.mem_cons_of_mem p hq, hid, hqne⟩
      · have hpne : p.id ≠ "" := fun h => h1 (Or.inl h)
        simp only [processPosts, if_neg h1, if_neg h2, List.mem_cons] at hr
        rcases hr with rfl | hr'
        · exact ⟨p, List.mem_cons_self p ps, by simp [mkRow], hpne⟩
        · rcases ih (ex.insert p.id) r hr' with ⟨q, hq, hid, hqne⟩
          exact ⟨q, List.mem_cons_of_mem p hq, hid, hqne⟩

/-- Topic-level version: every accepted row's identifier comes from an
item of one of the successfully fetched feeds. -/
theorem processFeeds_rows_from_items (ctx : Ctx) (tn : String) :
    ∀ (feeds : List (String × FetchResult)) (ex : List String),
      ∀ r ∈ (processFeeds ctx tn feeds ex).topic_new_rows,
        ∃ f ∈ feeds, ∃ p ∈ f.2.getD [], r.post_id = p.id ∧ p.id ≠ "" := by
  intro feeds
  induction feeds with
  | nil => intro ex r hr; simp [processFeeds] at hr
  | cons f fs ih =>
    intro ex r hr
    obtain ⟨sub, fr⟩ := f
    cases fr with
    | none =>
      rcases ih ex r (by simpa [processFeeds] using hr) with ⟨g, hg, p, hp, hid, hpne⟩
      exact ⟨g, List.mem_cons_of_mem _ hg, p, hp, hid, hpne⟩
    | some posts =>
      simp only [processFeeds, List.mem_append] at hr
      rcases hr with hr' | hr'
      · rcases processPosts_rows_from_items ctx tn sub posts ex r hr' with
          ⟨p, hp, hid, hpne⟩
        exact ⟨(sub, some posts), List.mem_cons_self _ fs, p, by simpa using hp,
          hid, hpne⟩
      · rcases ih (processPosts ctx tn sub posts ex).existing_ids r hr' with
          ⟨g, hg, p, hp, hid, hpne⟩
        exact ⟨g, List.mem_cons_of_mem _ hg, p, hp, hid, hpne⟩

/-- Counterexample to C1: an item identifier carrying surrounding
whitespace is persisted verbatim but loaded into the ledger stripped, so
a second run over the identical feed response re-accepts it: the claim
that the second run accepts zero rows fails. -/
theorem C1_counterexample :
    (processFeeds ⟨fun _ => 0, "now", fun _ => ""⟩ "Tech"
      [("golang", some [⟨" x", "hello", none, "", "", ""⟩])]
      (get_existing_post_ids
        (post_headers ::
          (processFeeds ⟨fun _ => 0, "now", fun _ => ""⟩ "Tech"
            [("golang", some [⟨" x", "hello", none, "", "", ""⟩])]
            []).topic_new_rows.map rowCells))).topic_new_rows.length = 1 := by
  decide

/-- C1 as amended: if every fetched identifier is unchanged by
whitespace stripping and the first run accepted at most 1999 rows (the
ledger's bounded scan depth), a second run against the store built from
the first run's rows and the identical feed responses accepts zero rows
for the topic. -/
theorem C1_amended_idempotent (ctx : Ctx) (tn : String)
    (feeds : List (String × FetchResult))
    (hids : ∀ f ∈ feeds, ∀ p ∈ f.2.getD [], pyStrip p.id = p.id)
    (hlen : (processFeeds ctx tn feeds []).topic_new_rows.length ≤ 1999) :
    (processFeeds ctx tn feeds
      (get_existing_post_ids
        (post_headers ::
          (processFeeds ctx tn feeds []).topic_new_rows.map
            rowCells))).topic_new_rows = [] := by
  have horig := processFeeds_rows_from_items ctx tn feeds []
  have htrim : ∀ r ∈ (processFeeds ctx tn feeds []).topic_new_rows,
      pyStrip r.post_id = r.post_id := by
    intro r hr
    rcases horig r hr with ⟨f, hf, p, hp, hid, _⟩
    rw [hid]
    exact hids f hf p hp
  have hne : ∀ r ∈ (processFeeds ctx tn feeds []).topic_new_rows,
      r.post_id ≠ "" := by
    intro r hr
    rcases horig r hr with ⟨f, hf, p, hp, hid, hpne⟩
    rw [hid]; exact hpne
  have hcover := get_existing_covers _ hlen htrim hne
  apply processFeeds_rows_nil_of_covered ctx ctx tn feeds []
  · intro x hx; exact absurd hx (List.not_mem_nil x)
  · intro x hx
    rcases List.mem_map.mp hx with ⟨r, hr, rfl⟩
    exact hcover r hr

/-- Witness for the amended C1 at a one-feed, one-item topic with a
well-formed identifier. -/
theorem C1_amended_idempotent_witness :
    (processFeeds ⟨fun _ => 0, "now", fun _ => ""⟩ "Tech"
      [("golang", some [⟨"a1", "hello", none, "", "", ""⟩])]
      (get_existing_post_ids
        (post_headers ::
          (processFeeds ⟨fun _ => 0, "now", fun _ => ""⟩ "Tech"
            [("golang", some [⟨"a1", "hello", none, "", "", ""⟩])]
            []).topic_new_rows.map rowCells))).topic_new_rows = [] :=
  C1_amended_idempotent ⟨fun _ => 0, "now", fun _ => ""⟩ "Tech"
    [("golang", some [⟨"a1", "hello", none, "", "", ""⟩])]
    (by decide) (by decide)

/-- A character surviving the replacement fold is either the inserted
space or an original character distinct from every processed pattern. -/
theorem replace_fold_chars :
    ∀ (bs t : List Char) (c : Char),
      c ∈ bs.foldl (fun t b => t.map fun x => if x = b then ' ' else x) t →
      c = ' ' ∨ (c ∈ t ∧ c ∉ bs) := by
  intro bs
  induction bs with
  | nil =>
    intro t c hc
    exact Or.inr ⟨by simpa using hc, by simp⟩
  | cons b bs ih =>
    intro t c hc
    rw [List.foldl_cons] at hc
    rcases ih _ c hc with h | ⟨hmem, hnot⟩
    · exact Or.inl h
    · rcases List.mem_map.mp hmem with ⟨d, hd, hdc⟩
      by_cases hdb : d = b
      · left; rw [← hdc]; simp [hdb]
      · right
        have hcd : c = d := by rw [← hdc]; simp [hdb]
        subst hcd
        refine ⟨hd, fun hx => ?_⟩
        rcases List.mem_cons.mp hx with rfl | hx'
        · exact hdb rfl
        · exact hnot hx'

/-- After the replacement pass no forbidden character remains. -/
theorem replaceBad_no_bad (s : List Char) : ∀ c ∈ replaceBad s, c ∉ badChars := by
  intro c hc
  rcases replace_fold_chars badChars s c hc with rfl | ⟨_, hnot⟩
  · decide
  · exact hnot

/-- Splitting invariant: a word produced by the splitter is non-empty,
whitespace-free, and made of characters of the pending word or the rest
of the input. -/
theorem wordsAux_spec :
    ∀ (s cur : List Char), (∀ c ∈ cur, c.isWhitespace = false) →
      ∀ w ∈ wordsAux cur s,
        w ≠ [] ∧ ∀ c ∈ w, c.isWhitespace = false ∧ (c ∈ cur ∨ c ∈ s) := by
  intro s
  induction s with
  | nil =>
    intro cur hcur w hw
    by_cases h : cur = []
    · simp [wordsAux, h] at hw
    · simp only [wordsAux, if_neg h, List.mem_singleton] at hw
      subst hw
      refine ⟨by simpa using h, fun c hc => ?_⟩
      rw [List.mem_reverse] at hc
      exact ⟨hcur c hc, Or.inl hc⟩
  | cons a t ih =>
    intro cur hcur w hw
    by_cases ha : a.isWhitespace = true
    · by_cases h : cur = []
      · simp only [wordsAux, ha, if_true, h] at hw
        rcases ih [] (by simp) w hw with ⟨hne, hall⟩
        exact ⟨hne, fun c hc => ⟨(hall c hc).1,
          Or.inr (List.mem_cons_of_mem a
            (((hall c hc).2).resolve_left (List.not_mem_nil c)))⟩⟩
      · simp only [wordsAux, ha, if_true, if_neg h, List.mem_cons] at hw
        rcases hw with rfl | hw'
        · refine ⟨by simpa using h, fun c hc => ?_⟩
          rw [List.mem_reverse] at hc
          exact ⟨hcur c hc, Or.inl hc⟩
        · rcases ih [] (by simp) w hw' with ⟨hne, hall⟩
          exact ⟨hne, fun c hc => ⟨(hall c hc).1,
            Or.inr (List.mem_cons_of_mem a
              (((hall c hc).2).resolve_left (List.not_mem_nil c)))⟩⟩
    · have ha' : a.isWhitespace = false := by simpa using ha
      simp only [wordsAux, ha', Bool.false_eq_true, if_false] at hw
      have hcur' : ∀ c ∈ a :: cur, c.isWhitespace = false := by
        intro c hc
        rcases List.mem_cons.mp hc with rfl | hc'
        · exact ha'
        · exact hcur c hc'
      rcases ih (a :: cur) hcur' w hw with ⟨hne, hall⟩
      refine ⟨hne, fun c hc => ?_⟩
      rcases hall c hc with ⟨hws, hin⟩
      rcases hin with hin | hin
      · rcases List.mem_cons.mp hin with rfl | hin'
        · exact ⟨hws, Or.inr (by simp)⟩
        · exact ⟨hws, Or.inl hin'⟩
      · exact ⟨hws, Or.inr (List.mem_cons_of_mem a hin)⟩

/-- Properties of `str.split()`: words are non-empty, whitespace-free,
and built from input characters. -/
theorem words_spec (s : List Char) :
    ∀ w ∈ words s, w ≠ [] ∧ ∀ c ∈ w, c.isWhitespace = false ∧ c ∈ s := by
  intro w hw
  rcases wordsAux_spec s [] (by simp) w hw with ⟨hne, hall⟩
  exact ⟨hne, fun c hc => ⟨(hall c hc).1,
    ((hall c hc).2).resolve_left (List.not_mem_nil c)⟩⟩

/-- Characters of a join are the separator space or word characters. -/
theorem joinSp_chars :
    ∀ (l : List (List Char)) (c : Char), c ∈ joinSp l →
      c = ' ' ∨ ∃ w ∈ l, c ∈ w := by
  intro l
  induction l with
  | nil => intro c hc; simp [joinSp] at hc
  | cons w rest ih =>
    intro c hc
    cases rest with
    | nil => exact Or.inr ⟨w, by simp, by simpa [joinSp] using hc⟩
    | cons x r =>
      simp only [joinSp] at hc
      rcases List.mem_append.mp hc with h | h
      · exact Or.inr ⟨w, by simp, h⟩
      · rcases List.mem_cons.mp h with rfl | h'
        · exact Or.inl rfl
        · rcases ih c h' with h'' | ⟨w', hw', hcw⟩
          · exact Or.inl h''
          · exact Or.inr ⟨w', List.mem_cons_of_mem w hw', hcw⟩

/-- Joining a non-empty list of non-empty words is non-empty. -/
theorem joinSp_ne_nil :
    ∀ (l : List (List Char)), l ≠ [] → (∀ w ∈ l, w ≠ []) → joinSp l ≠ [] := by
  intro l hne hall
  cases l with
  | nil => exact absurd rfl hne
  | cons w rest =>
    cases rest with
    | nil => simpa [joinSp] using hall w (by simp)
    | cons x r =>
      simp only [joinSp]
      simp

/-- The head of a join of non-empty whitespace-free words is not
whitespace. -/
theorem joinSp_head_not_ws :
    ∀ (l : List (List Char)),
      (∀ w ∈ l, w ≠ [] ∧ ∀ c ∈ w, c.isWhitespace = false) →
      ∀ c, (joinSp l).head? = some c → c.isWhitespace = false := by
  intro l hl c hc
  cases l with
  | nil => simp [joinSp] at hc
  | cons w rest =>
    obtain ⟨hwne, hwall⟩ := hl w (by simp)
    cases rest with
    | nil =>
      simp only [joinSp] at hc
      exact hwall c (List.mem_of_mem_head? hc)
    | cons x r =>
      simp only [joinSp] at hc
      cases w with
      | nil => exact absurd rfl hwne
      | cons d dt =>
        simp only [List.cons_append, List.head?_cons, Option.some.injEq] at hc
        rw [← hc]
        exact hwall d (by simp)

/-- The last character of a join of non-empty whitespace-free words is
not whitespace. -/
theorem joinSp_getLast_not_ws :
    ∀ (l : List (List Char)),
      (∀ w ∈ l, w ≠ [] ∧ ∀ c ∈ w, c.isWhitespace = false) →
      ∀ c, (joinSp l).getLast? = some c → c.isWhitespace = false := by
  intro l
  induction l with
  | nil => intro _ c hc; simp [joinSp] at hc
  | cons w rest ih =>
    intro hl c hc
    cases rest with
    | nil =>
      simp only [joinSp] at hc
      exact (hl w (by simp)).2 c (List.mem_of_mem_getLast? hc)
    | cons x r =>
      simp only [joinSp] at hc
      rw [List.getLast?_append_cons] at hc
      have hne3 : joinSp (x :: r) ≠ [] :=
        joinSp_ne_nil (x :: r) (by simp)
          (fun w' hw' => (hl w' (List.mem_cons_of_mem w hw')).1)
      rw [← List.singleton_append, List.getLast?_append_of_ne_nil _ hne3] at hc
      exact ih (fun w' hw' => hl w' (List.mem_cons_of_mem w hw')) c hc

/-- Prepending whitespace-free characters preserves the
no-two-adjacent-whitespace property. -/
theorem noTwoWS_nonws_append :
    ∀ (w ys : List Char), (∀ c ∈ w, c.isWhitespace = false) →
      noTwoWS ys = true → noTwoWS (w ++ ys) = true := by
  intro w
  induction w with
  | nil => intro ys _ h; simpa using h
  | cons a t ih =>
    intro ys hw hys
    have ha : a.isWhitespace = false := hw a (by simp)
    have ht : noTwoWS (t ++ ys) = true :=
      ih ys (fun c hc => hw c (List.mem_cons_of_mem a hc)) hys
    rw [List.cons_append]
    cases h : t ++ ys with
    | nil => simp [noTwoWS]
    | cons b u =>
      rw [h] at ht
      simp [noTwoWS, ha, ht]

/-- A join of non-empty whitespace-free words never has two adjacent
whitespace characters. -/
theorem noTwoWS_joinSp :
    ∀ (l : List (List Char)),
      (∀ w ∈ l, w ≠ [] ∧ ∀ c ∈ w, c.isWhitespace = false) →
      noTwoWS (joinSp l) = true := by
  intro l
  induction l with
  | nil => intro _; simp [joinSp, noTwoWS]
  | cons w rest ih =>
    intro hl
    cases rest with
    | nil =>
      have := noTwoWS_nonws_append w [] ((hl w (by simp)).2) (by simp [noTwoWS])
      simpa [joinSp] using this
    | cons x r =>
      have hrest := ih (fun w' hw' => hl w' (List.mem_cons_of_mem w hw'))
      have hh : noTwoWS (' ' :: joinSp (x :: r)) = true := by
        cases hj : joinSp (x :: r) with
        | nil => simp [noTwoWS]
        | cons d u =>
          have hd : d.isWhitespace = false := by
            apply joinSp_head_not_ws (x :: r)
              (fun w' hw' => hl w' (List.mem_cons_of_mem w hw')) d
            rw [hj]; rfl
          rw [hj] at hrest
          simp [noTwoWS, hd, hrest]
      have := noTwoWS_nonws_append w (' ' :: joinSp (x :: r))
        ((hl w (by simp)).2) hh
      simpa [joinSp] using this

/-- Dropping the whitespace head of a list whose head is not whitespace
changes nothing. -/
theorem dropWhile_eq_self_of_head (l : List Char)
    (h : ∀ c, l.head? = some c → c.isWhitespace = false) :
    l.dropWhile Char.isWhitespace = l := by
  cases l with
  | nil => rfl
  | cons a t =>
    have := h a rfl
    simp [List.dropWhile_cons, this]

/-- Stripping is a no-op on a list with neither leading nor trailing
whitespace. -/
theorem stripChars_eq_self (l : List Char)
    (hhead : ∀ c, l.head? = some c → c.isWhitespace = false)
    (hlast : ∀ c, l.getLast? = some c → c.isWhitespace = false) :
    stripChars l = l := by
  unfold stripChars
  rw [dropWhile_eq_self_of_head l hhead]
  rw [dropWhile_eq_self_of_head l.reverse
    (fun c hc => hlast c (by rwa [List.head?_reverse] at hc))]
  exact List.reverse_reverse l

/-- Truncation preserves the no-two-adjacent-whitespace property. -/
theorem noTwoWS_take :
    ∀ (l : List Char) (n : Nat), noTwoWS l = true → noTwoWS (l.take n) = true := by
  intro l
  induction l with
  | nil => intro n _; simp [noTwoWS]
  | cons a t ih =>
    intro n h
    cases n with
    | zero => simp [noTwoWS]
    | succ m =>
      rw [List.take_succ_cons]
      cases t with
      | nil => simp [noTwoWS]
      | cons b u =>
        simp only [noTwoWS, Bool.and_eq_true] at h
        obtain ⟨h1, h2⟩ := h
        cases m with
        | zero => simp [noTwoWS]
        | succ k =>
          rw [List.take_succ_cons]
          have ht : noTwoWS (b :: u.take k) = true := by
            have := ih (k + 1) h2
            simpa [List.take_succ_cons] using this
          simp only [noTwoWS, Bool.and_eq_true]
          exact ⟨h1, ht⟩

/-- The head survives a positive truncation. -/
theorem head?_take_eq (l : List Char) (n : Nat) (hn : n ≠ 0) :
    (l.take n).head? = l.head? := by
  cases l with
  | nil => simp
  | cons a t =>
    cases n with
    | zero => exact absurd rfl hn
    | succ m => simp [List.take_succ_cons]

/-- Counterexample to C10: truncation to 100 characters happens after
whitespace collapsing, so a 99-character word followed by another word
leaves a trailing space in the sanitized title. -/
theorem C10_counterexample :
    (safe_sheet_title (List.replicate 99 'a' ++ [' ', 'b'])).getLast? = some ' ' ∧
    (' ').isWhitespace = true := by
  exact ⟨by decide, by decide⟩

/-- C10 as amended: the sanitizer always returns a non-empty list of at
most 100 characters containing no forbidden character, with no leading
whitespace and no two adjacent whitespace characters (truncation may
still leave a single trailing space), and an input that sanitizes to
empty yields the fixed fallback name Topic. -/
theorem C10_amended_sanitizer (s : List Char) :
    safe_sheet_title s ≠ [] ∧
    (safe_sheet_title s).length ≤ 100 ∧
    (∀ c ∈ safe_sheet_title s, c ∉ badChars) ∧
    (∀ c, (safe_sheet_title s).head? = some c → c.isWhitespace = false) ∧
    noTwoWS (safe_sheet_title s) = true ∧
    (stripChars (joinSp (words (replaceBad s))) = [] →
      safe_sheet_title s = "Topic".toList) := by
  have hwords := words_spec (replaceBad s)
  have hwprops : ∀ w ∈ words (replaceBad s),
      w ≠ [] ∧ ∀ c ∈ w, c.isWhitespace = false :=
    fun w hw => ⟨(hwords w hw).1, fun c hc => ((hwords w hw).2 c hc).1⟩
  have hjhead := joinSp_head_not_ws _ hwprops
  have hjlast := joinSp_getLast_not_ws _ hwprops
  have hstrip : stripChars (joinSp (words (replaceBad s))) =
      joinSp (words (replaceBad s)) :=
    stripChars_eq_self _ hjhead hjlast
  have hnot2 : noTwoWS (joinSp (words (replaceBad s))) = true :=
    noTwoWS_joinSp _ hwprops
  have hs : safe_sheet_title s =
      if joinSp (words (replaceBad s)) = [] then "Topic".toList
      else (joinSp (words (replaceBad s))).take 100 := by
    simp only [safe_sheet_title]
    rw [hstrip]
  by_cases hz : joinSp (words (replaceBad s)) = []
  · rw [hs, if_pos hz]
    exact ⟨by decide, by decide, by decide, by decide, by decide, fun _ => rfl⟩
  · rw [hs, if_neg hz]
    have htk : ∀ c ∈ (joinSp (words (replaceBad s))).take 100, c ∉ badChars := by
      intro c hc
      have hcj : c ∈ joinSp (words (replaceBad s)) := List.mem_of_mem_take hc
      rcases joinSp_chars _ c hcj with rfl | ⟨w, hw, hcw⟩
      · decide
      · exact replaceBad_no_bad s c ((hwords w hw).2 c hcw).2
    refine ⟨?_, ?_, htk, ?_, noTwoWS_take _ 100 hnot2,
      fun h => absurd (hstrip.symm.trans h) hz⟩
    · intro hcontra
      have hlen0 := congrArg List.length hcontra
      rw [List.length_take] at hlen0
      have hnil : joinSp (words (replaceBad s)) = [] := by simpa using hlen0
      exact hz hnil
    · rw [List.length_take]
      exact min_le_left _ _
    · intro c hc
      rw [head?_take_eq _ 100 (by omega)] at hc
      exact hjhead c hc

end RTS
